import Mathlib

/-!
Shallow embedding of the `git-ignore` tool (src/main.rs) and proofs about it.

Strings are modelled as lists of Unicode scalar values (`List Char`), matching
Rust's `char` sequences; paths are modelled as lists of components, matching the
componentwise operations (`join`, iteration) the source performs on them.
Lexicographic comparison of `List Char` by code point coincides with Rust's
bytewise comparison of the corresponding UTF-8 strings, since UTF-8 preserves
code-point order.
-/

abbrev Line := List Char

/-- View a Lean string literal as a list of chars (only used to write inputs). -/
def str (s : String) : Line := s.data

/-- Rust `char::is_whitespace`: the Unicode `White_Space` property. -/
def rustIsWhitespace (c : Char) : Bool :=
  (0x9 ≤ c.val && c.val ≤ 0xD) || c.val == 0x20 || c.val == 0x85 || c.val == 0xA0 ||
  c.val == 0x1680 || (0x2000 ≤ c.val && c.val ≤ 0x200A) ||
  c.val == 0x2028 || c.val == 0x2029 || c.val == 0x202F || c.val == 0x205F || c.val == 0x3000

/-- Rust `str::trim`: remove leading and trailing whitespace. -/
def trim (l : Line) : Line :=
  ((l.dropWhile rustIsWhitespace).reverse.dropWhile rustIsWhitespace).reverse

/-- Split a char sequence at every newline (the pieces do not contain `'\n'`). -/
def splitNl : Line → List Line
  | [] => [[]]
  | c :: rest =>
    match splitNl rest with
    | [] => [[]]
    | l :: ls => if c = '\n' then [] :: l :: ls else (c :: l) :: ls

/-- Remove one trailing carriage return, as Rust `str::lines` does to each line. -/
def stripCR (l : Line) : Line :=
  if l.getLast? = some '\r' then l.dropLast else l

/-- Rust `str::lines`: split at `'\n'`, drop the final piece when it is empty
    (the final line ending is optional), and strip a trailing `'\r'` from each
    line. -/
def rustLines (text : Line) : List Line :=
  let parts := splitNl text
  let parts := if parts.getLast? = some [] then parts.dropLast else parts
  parts.map stripCR

/-- The filter inside `merge`'s `filter_map`: a trimmed line is dropped when it
    is empty or starts with `'#'`. -/
def keepLine (l : Line) : Bool :=
  !(l.isEmpty || l.head? == '#')

/-- `l.starts_with('!')`: the partition predicate in `merge`. -/
def isNeg (l : Line) : Bool := l.head? == '!'

/-- Rust `Vec::dedup`: remove *adjacent* duplicates, keeping one per run. -/
def dedupAdj {α : Type} [DecidableEq α] : List α → List α
  | [] => []
  | [a] => [a]
  | a :: b :: rest =>
    if a = b then dedupAdj (b :: rest) else a :: dedupAdj (b :: rest)

/-- `sort_unstable` followed by `dedup` from `merge`. Rust's unstable sort is
    modelled by insertion sort: both produce the unique `≤`-sorted permutation
    (equal `Line`s are identical, so instability is unobservable). -/
def sortDedup (ls : List Line) : List Line :=
  dedupAdj (List.insertionSort (· ≤ ·) ls)

/-- The ordering pass of `merge`: sort, dedup, then partition on a leading `'!'`
    and emit non-negation patterns before negation patterns. -/
def canon (ls : List Line) : List Line :=
  let sorted := sortDedup ls
  let parts := sorted.partition (fun l => isNeg l)
  parts.2 ++ parts.1

/-- `lines.join("\n")`. -/
def joinLines : List Line → Line
  | [] => []
  | [l] => l
  | l :: rest => l ++ '\n' :: joinLines rest

/-- The final step of `merge`: join with `'\n'` and push one trailing `'\n'`
    when the result is non-empty. -/
def joinNl (ls : List Line) : Line :=
  let text := joinLines ls
  if text.isEmpty then text else text ++ ['\n']

/-- The line list `merge` renders. The `HashSet` accumulation of
    `text.lines()` and `args` is modelled by first-occurrence deduplication
    (`List.dedup`); the set's unspecified iteration order is unobservable
    because the list is sorted and deduplicated again before rendering. -/
def mergeList (text : Line) (args : List Line) : List Line :=
  canon ((((rustLines text ++ args).dedup).map trim).filter keepLine)

/-- `fn merge(text: &str, args: &[String]) -> String`. -/
def merge (text : Line) (args : List Line) : Line :=
  joinNl (mergeList text args)

/-- `fn update` after the target's current text `old` has been read (a missing
    file reads as empty). First component: the text written, `none` when the
    merge result equals `old` ("Nothing to do!", no write). Second component:
    the value returned, `Ok(0)`. -/
def update (old : Line) (args : List Line) : Option Line × Nat :=
  let new := merge old args
  if new = old then (none, 0) else (some new, 0)

/-- `enum Mode`. -/
inductive Mode where
  | file (name : Line)
  | global
  | internal
  | root
deriving DecidableEq

/-- The options `getopt::Parser::new(&args, "f:ghir")` can produce. -/
inductive CliOpt where
  | f (arg : Line)
  | g
  | i
  | r
  | h
deriving DecidableEq

/-- The option loop of `fn program`: each mode flag overwrites `mode`
    unconditionally; `-h` prints the usage text and returns `Ok(0)` at once,
    modelled as `none`. -/
def runOpts (mode : Mode) : List CliOpt → Option Mode
  | [] => some mode
  | o :: rest =>
    match o with
    | .f arg => runOpts (.file arg) rest
    | .g => runOpts .global rest
    | .i => runOpts .internal rest
    | .r => runOpts .root rest
    | .h => none

/-- `let mut mode = Mode::File(".gitignore".to_string())`. -/
def defaultMode : Mode := Mode.file (str ".gitignore")

/-- What `fn program` does after option processing: `help` = usage to stdout,
    `Ok(0)`; `usageError` = usage line to stderr, `Ok(1)`; `runUpdate` = the
    call `update(mode, args)` on the remaining positional arguments. -/
inductive Outcome where
  | help
  | usageError
  | runUpdate (mode : Mode) (patterns : List Line)
deriving DecidableEq

/-- `fn program`, over the already-parsed option list and the positional
    arguments left after `args.split_off(opts.index())`. -/
def program (opts : List CliOpt) (positionals : List Line) : Outcome :=
  match runOpts defaultMode opts with
  | none => .help
  | some m => if positionals.isEmpty then .usageError else .runUpdate m positionals

/-- The process exit status of `fn program`; `oldText` is the text `update`
    reads from the resolved file (I/O errors are outside the model). -/
def programExit (opts : List CliOpt) (positionals : List Line) (oldText : Line) : Nat :=
  match program opts positionals with
  | .help => 0
  | .usageError => 1
  | .runUpdate _ pats => (update oldText pats).2

/-! ### The resolver -/

/-- A filesystem path as its components. -/
abbrev FsPath := List Line

/-- The slice of `git2::ErrorClass` the source inspects. -/
inductive ErrorClass where
  | config
  | other
deriving DecidableEq

/-- The slice of `git2::ErrorCode` the source inspects. -/
inductive ErrorCode where
  | notFound
  | other
deriving DecidableEq

/-- Result of `Config::open_default()?.get_path("core.excludesFile")`. -/
inductive StoreResult where
  | ok (path : FsPath)
  | error (cls : ErrorClass) (code : ErrorCode)
deriving DecidableEq

/-- The errors the resolver can return. -/
inductive ResolveError where
  | store (cls : ErrorClass) (code : ErrorCode)
  | noConfigDir
  | notInRepository
  | bareRepository
deriving DecidableEq

/-- A resolved target: the path, and what was passed to `fs::create_dir_all`
    (if anything). -/
structure Resolved where
  path : FsPath
  createdDir : Option FsPath
deriving DecidableEq

/-- What `Repository::open_from_env()` exposes when it succeeds. -/
structure RepoInfo where
  gitDir : FsPath
  workdir : Option FsPath

/-- The ambient state the resolver consults. -/
structure Env where
  cwd : FsPath
  excludesFile : StoreResult
  configDir : Option FsPath
  repo : Option RepoInfo

/-- `fn global_ignore_file`. -/
def global_ignore_file (store : StoreResult) (configDir : Option FsPath) :
    Except ResolveError Resolved :=
  match store with
  | .error cls code =>
    if cls = .config ∧ code = .notFound then
      match configDir with
      | none => .error .noConfigDir
      | some d =>
        let dir := d ++ [str "git"]
        .ok ⟨dir ++ [str "ignore"], some dir⟩
    else .error (.store cls code)
  | .ok path => .ok ⟨path, none⟩

/-- `fn fix_path`: rebuild a path by pushing each of its components. -/
def fix_path (p : FsPath) : FsPath := p.foldl (fun acc e => acc ++ [e]) []

/-- `fn internal_ignore_file`. -/
def internal_ignore_file (repo : Option RepoInfo) : Except ResolveError Resolved :=
  match repo with
  | none => .error .notInRepository
  | some r =>
    let dir := fix_path r.gitDir ++ [str "info"]
    .ok ⟨dir ++ [str "exclude"], some dir⟩

/-- `fn root_ignore_file`. -/
def root_ignore_file (repo : Option RepoInfo) : Except ResolveError Resolved :=
  match repo with
  | none => .error .notInRepository
  | some r =>
    match r.workdir with
    | none => .error .bareRepository
    | some w => .ok ⟨w ++ [str ".gitignore"], none⟩

/-- `fn get_file`. -/
def get_file (env : Env) : Mode → Except ResolveError Resolved
  | .file name => .ok ⟨env.cwd ++ [name], none⟩
  | .global => global_ignore_file env.excludesFile env.configDir
  | .internal => internal_ignore_file env.repo
  | .root => root_ignore_file env.repo

/-! ### Sanity checks: the scenarios of spec §8 -/

example : merge (str "foo\n") [str "bar"] = str "bar\nfoo\n" := by decide
example : merge (str "# comment\n\nfoo\n") [] = str "foo\n" := by decide
example : merge [] [str "!keep.txt", str "*.log"] = str "*.log\n!keep.txt\n" := by decide
example : merge (str "a\na\n") [str "a"] = str "a\n" := by decide

/-! ### Properties of trimming -/

theorem dropWhile_head_false {α : Type} {p : α → Bool} {l : List α} {c : α}
    (h : (l.dropWhile p).head? = some c) : p c = false := by
  induction l with
  | nil => simp [List.dropWhile] at h
  | cons a as ih =>
    rw [List.dropWhile_cons] at h
    by_cases hp : p a
    · rw [if_pos hp] at h
      exact ih h
    · rw [if_neg hp] at h
      simp only [List.head?_cons, Option.some.injEq] at h
      subst h
      simpa using hp

theorem dropWhile_of_head_false {α : Type} {p : α → Bool} {l : List α}
    (h : ∀ c, l.head? = some c → p c = false) : l.dropWhile p = l := by
  cases l with
  | nil => rfl
  | cons a as =>
    rw [List.dropWhile_cons, if_neg]
    simp [h a rfl]

theorem trim_getLast_false {l : Line} {c : Char}
    (h : (trim l).getLast? = some c) : rustIsWhitespace c = false := by
  unfold trim at h
  rw [List.getLast?_reverse] at h
  exact dropWhile_head_false h

theorem trim_head_false {l : Line} {c : Char}
    (h : (trim l).head? = some c) : rustIsWhitespace c = false := by
  unfold trim at h
  rw [List.head?_reverse] at h
  set X := ((l.dropWhile rustIsWhitespace).reverse.dropWhile rustIsWhitespace) with hX
  have hXne : X ≠ [] := by
    intro hnil
    rw [hnil] at h
    simp at h
  obtain ⟨pre, hpre⟩ := List.dropWhile_suffix (l := (l.dropWhile rustIsWhitespace).reverse)
    rustIsWhitespace
  rw [← hX] at hpre
  have : X.getLast? = ((l.dropWhile rustIsWhitespace).reverse).getLast? := by
    conv_rhs => rw [← hpre]
    rw [List.getLast?_append_of_ne_nil _ hXne]
  rw [this, List.getLast?_reverse] at h
  exact dropWhile_head_false h

theorem trim_eq_self {l : Line}
    (hh : ∀ c, l.head? = some c → rustIsWhitespace c = false)
    (hl : ∀ c, l.getLast? = some c → rustIsWhitespace c = false) : trim l = l := by
  unfold trim
  rw [dropWhile_of_head_false hh, dropWhile_of_head_false, List.reverse_reverse]
  intro c hc
  rw [List.head?_reverse] at hc
  exact hl c hc

theorem trim_trim (l : Line) : trim (trim l) = trim l :=
  trim_eq_self (fun _ h => trim_head_false h) (fun _ h => trim_getLast_false h)

theorem trim_sublist (l : Line) : List.Sublist (trim l) l := by
  unfold trim
  have h1 : List.Sublist
      ((l.dropWhile rustIsWhitespace).reverse.dropWhile rustIsWhitespace).reverse
      (l.dropWhile rustIsWhitespace).reverse.reverse :=
    (List.dropWhile_sublist _).reverse
  rw [List.reverse_reverse] at h1
  exact h1.trans (List.dropWhile_sublist _)

theorem not_mem_trim {l : Line} {c : Char} (h : c ∉ l) : c ∉ trim l :=
  fun hc => h ((trim_sublist l).subset hc)

/-! ### Properties of the sort/dedup/partition pass -/

theorem mem_dedupAdj {α : Type} [DecidableEq α] {x : α} :
    ∀ {l : List α}, x ∈ dedupAdj l ↔ x ∈ l
  | [] => Iff.rfl
  | [_] => by simp [dedupAdj]
  | a :: b :: rest => by
    rw [dedupAdj]
    by_cases hab : a = b
    · rw [if_pos hab]
      subst hab
      rw [mem_dedupAdj]
      simp
    · rw [if_neg hab]
      simp [mem_dedupAdj (l := b :: rest)]

theorem dedupAdj_sublist {α : Type} [DecidableEq α] :
    ∀ (l : List α), List.Sublist (dedupAdj l) l
  | [] => by simp [dedupAdj]
  | [a] => by simp [dedupAdj]
  | a :: b :: rest => by
    rw [dedupAdj]
    by_cases hab : a = b
    · rw [if_pos hab]
      exact (dedupAdj_sublist (b :: rest)).cons _
    · rw [if_neg hab]
      exact (dedupAdj_sublist (b :: rest)).cons₂ _

theorem dedupAdj_of_nodup {α : Type} [DecidableEq α] :
    ∀ {l : List α}, l.Nodup → dedupAdj l = l
  | [], _ => rfl
  | [_], _ => rfl
  | a :: b :: rest, h => by
    rw [dedupAdj, if_neg, dedupAdj_of_nodup h.of_cons]
    intro hab
    subst hab
    simp at h

theorem nodup_dedupAdj : ∀ {l : List Line}, l.Sorted (· ≤ ·) → (dedupAdj l).Nodup
  | [], _ => by simp [dedupAdj]
  | [_], _ => by simp [dedupAdj]
  | a :: b :: rest, h => by
    have htail : (b :: rest).Sorted (· ≤ ·) := h.of_cons
    rw [dedupAdj]
    by_cases hab : a = b
    · rw [if_pos hab]
      exact nodup_dedupAdj htail
    · rw [if_neg hab]
      refine List.nodup_cons.mpr ⟨?_, nodup_dedupAdj htail⟩
      rw [mem_dedupAdj]
      intro hmem
      have hab' : a ≤ b := (List.rel_of_sorted_cons h) b (List.mem_cons_self b rest)
      rcases List.mem_cons.mp hmem with h1 | h1
      · exact hab h1
      · have hba : b ≤ a := (List.rel_of_sorted_cons htail) a h1
        exact hab (le_antisymm hab' hba)

theorem sorted_sortDedup (ls : List Line) : (sortDedup ls).Sorted (· ≤ ·) :=
  List.Pairwise.sublist (dedupAdj_sublist _) (List.sorted_insertionSort _ ls)

theorem nodup_sortDedup (ls : List Line) : (sortDedup ls).Nodup :=
  nodup_dedupAdj (List.sorted_insertionSort _ ls)

theorem mem_sortDedup {x : Line} {ls : List Line} : x ∈ sortDedup ls ↔ x ∈ ls :=
  mem_dedupAdj.trans (List.mem_insertionSort _)

theorem sortDedup_eq_of_mem_iff {l₁ l₂ : List Line} (h : ∀ x, x ∈ l₁ ↔ x ∈ l₂) :
    sortDedup l₁ = sortDedup l₂ := by
  apply List.eq_of_perm_of_sorted ?_ (sorted_sortDedup l₁) (sorted_sortDedup l₂)
  rw [List.perm_ext_iff_of_nodup (nodup_sortDedup l₁) (nodup_sortDedup l₂)]
  intro a
  rw [mem_sortDedup, mem_sortDedup]
  exact h a

theorem canon_eq_filter (ls : List Line) :
    canon ls = (sortDedup ls).filter (fun l => !isNeg l) ++
      (sortDedup ls).filter (fun l => isNeg l) := by
  simp only [canon, List.partition_eq_filter_filter]
  rfl

theorem canon_perm_sortDedup (ls : List Line) : (canon ls).Perm (sortDedup ls) := by
  rw [canon_eq_filter]
  have h := List.filter_append_perm (fun l => !isNeg l) (sortDedup ls)
  simpa only [Bool.not_not] using h

theorem mem_canon {x : Line} {ls : List Line} : x ∈ canon ls ↔ x ∈ ls :=
  ((canon_perm_sortDedup ls).mem_iff).trans mem_sortDedup

theorem nodup_canon (ls : List Line) : (canon ls).Nodup :=
  (canon_perm_sortDedup ls).nodup_iff.mpr (nodup_sortDedup ls)

theorem canon_eq_of_mem_iff {l₁ l₂ : List Line} (h : ∀ x, x ∈ l₁ ↔ x ∈ l₂) :
    canon l₁ = canon l₂ := by
  unfold canon
  rw [sortDedup_eq_of_mem_iff h]

theorem canon_canon (ls : List Line) : canon (canon ls) = canon ls :=
  canon_eq_of_mem_iff (fun _ => mem_canon)

/-! ### Properties of line splitting and joining -/

theorem splitNl_ne_nil : ∀ (l : Line), splitNl l ≠ []
  | [] => by simp [splitNl]
  | c :: rest => by
    cases h : splitNl rest with
    | nil => exact absurd h (splitNl_ne_nil rest)
    | cons l ls =>
      simp only [splitNl, h]
      by_cases hc : c = '\n' <;> simp [hc]

theorem no_nl_of_mem_splitNl : ∀ {l piece : Line}, piece ∈ splitNl l → '\n' ∉ piece
  | [], piece, h => by
    simp [splitNl] at h
    simp [h]
  | c :: rest, piece, h => by
    cases hsp : splitNl rest with
    | nil => exact absurd hsp (splitNl_ne_nil rest)
    | cons l ls =>
      simp only [splitNl, hsp] at h
      by_cases hc : c = '\n'
      · rw [if_pos hc] at h
        rcases List.mem_cons.mp h with h1 | h1
        · subst h1
          simp
        · exact no_nl_of_mem_splitNl (l := rest) (hsp ▸ h1)
      · rw [if_neg hc] at h
        rcases List.mem_cons.mp h with h1 | h1
        · subst h1
          intro hmem
          rcases List.mem_cons.mp hmem with h2 | h2
          · exact hc h2.symm
          · exact no_nl_of_mem_splitNl (l := rest)
              (hsp ▸ List.mem_cons_self l ls) h2
        · exact no_nl_of_mem_splitNl (l := rest) (hsp ▸ List.mem_cons_of_mem l h1)

theorem splitNl_cons_nl (r : Line) : splitNl ('\n' :: r) = [] :: splitNl r := by
  cases h : splitNl r with
  | nil => exact absurd h (splitNl_ne_nil r)
  | cons l ls => simp [splitNl, h]

theorem splitNl_append {l : Line} (r : Line) (h : '\n' ∉ l) :
    splitNl (l ++ r) = (l ++ (splitNl r).headI) :: (splitNl r).tail := by
  induction l with
  | nil =>
    cases hr : splitNl r with
    | nil => exact absurd hr (splitNl_ne_nil r)
    | cons x xs => simp [hr]
  | cons c cs ih =>
    have hc : c ≠ '\n' := fun hc => h (hc ▸ List.mem_cons_self c cs)
    have hcs : '\n' ∉ cs := fun hm => h (List.mem_cons_of_mem c hm)
    rw [List.cons_append]
    cases hsp : splitNl (cs ++ r) with
    | nil => exact absurd hsp (splitNl_ne_nil _)
    | cons l ls =>
      simp only [splitNl, hsp, if_neg hc]
      rw [ih hcs] at hsp
      obtain ⟨rfl, rfl⟩ : cs ++ (splitNl r).headI = l ∧ (splitNl r).tail = ls :=
        ⟨by injection hsp, by injection hsp⟩
      simp

theorem joinLines_single (x : Line) : joinLines [x] = x := rfl

theorem joinLines_cons₂ (x y : Line) (rest : List Line) :
    joinLines (x :: y :: rest) = x ++ '\n' :: joinLines (y :: rest) := rfl

theorem joinLines_ne_nil :
    ∀ {L : List Line}, L ≠ [] → (∀ x ∈ L, x ≠ []) → joinLines L ≠ []
  | [], hne, _ => absurd rfl hne
  | [x], _, hx => by simpa [joinLines_single] using hx x (by simp)
  | x :: y :: rest, _, _ => by
    rw [joinLines_cons₂]
    simp

theorem getLast?_joinLines_not :
    ∀ {L : List Line}, (∀ x ∈ L, x.getLast? ≠ some '\n') → (∀ x ∈ L, x ≠ []) →
      (joinLines L).getLast? ≠ some '\n'
  | [], _, _ => by simp [joinLines]
  | [x], h, _ => by simpa [joinLines_single] using h x (by simp)
  | x :: y :: rest, h, hne => by
    rw [joinLines_cons₂, List.getLast?_append_cons]
    have htail : ∀ z ∈ y :: rest, z.getLast? ≠ some '\n' :=
      fun z hz => h z (List.mem_cons_of_mem x hz)
    have htailne : ∀ z ∈ y :: rest, z ≠ [] :=
      fun z hz => hne z (List.mem_cons_of_mem x hz)
    have hjy : joinLines (y :: rest) ≠ [] := joinLines_ne_nil (by simp) htailne
    cases hj : joinLines (y :: rest) with
    | nil => exact absurd hj hjy
    | cons m ms =>
      rw [List.getLast?_cons_cons, ← hj]
      exact getLast?_joinLines_not htail htailne

theorem splitNl_joinLines :
    ∀ {L : List Line}, L ≠ [] → (∀ x ∈ L, '\n' ∉ x) →
      splitNl (joinLines L ++ ['\n']) = L ++ [[]]
  | [], hne, _ => absurd rfl hne
  | [x], _, h => by
    rw [joinLines_single, splitNl_append _ (h x (by simp))]
    simp [splitNl_cons_nl, splitNl]
  | x :: y :: rest, _, h => by
    have hx : '\n' ∉ x := h x (by simp)
    have htail : ∀ z ∈ y :: rest, '\n' ∉ z := fun z hz => h z (List.mem_cons_of_mem x hz)
    rw [joinLines_cons₂, List.append_assoc, List.cons_append,
      splitNl_append _ hx, splitNl_cons_nl,
      splitNl_joinLines (by simp) htail]
    simp

theorem map_eq_self_of {α : Type} {f : α → α} {l : List α} (h : ∀ x ∈ l, f x = x) :
    l.map f = l := by
  induction l with
  | nil => rfl
  | cons a as ih =>
    rw [List.map_cons, h a (List.mem_cons_self a as),
      ih (fun x hx => h x (List.mem_cons_of_mem a hx))]

theorem no_nl_of_mem_rustLines {T x : Line} (h : x ∈ rustLines T) : '\n' ∉ x := by
  rw [rustLines] at h
  obtain ⟨y, hy, rfl⟩ := List.mem_map.mp h
  have hy' : y ∈ splitNl T := by
    by_cases hc : (splitNl T).getLast? = some ([] : Line)
    · rw [if_pos hc] at hy
      exact (List.dropLast_sublist _).subset hy
    · rwa [if_neg hc] at hy
  have hnl : '\n' ∉ y := no_nl_of_mem_splitNl hy'
  unfold stripCR
  by_cases hr : y.getLast? = some '\r'
  · rw [if_pos hr]
    exact fun hm => hnl ((List.dropLast_sublist y).subset hm)
  · rwa [if_neg hr]

theorem rustLines_joinNl {L : List Line}
    (h1 : ∀ x ∈ L, '\n' ∉ x) (h2 : ∀ x ∈ L, x ≠ [])
    (h3 : ∀ x ∈ L, x.getLast? ≠ some '\r') :
    rustLines (joinNl L) = L := by
  cases L with
  | nil => simp [joinNl, joinLines, rustLines, splitNl]
  | cons x rest =>
    have hjoin : joinLines (x :: rest) ≠ [] := joinLines_ne_nil (by simp) h2
    have hjoinNl : joinNl (x :: rest) = joinLines (x :: rest) ++ ['\n'] := by
      rw [joinNl]
      cases hjl : joinLines (x :: rest) with
      | nil => exact absurd hjl hjoin
      | cons a as => simp
    rw [hjoinNl, rustLines, splitNl_joinLines (by simp) h1]
    rw [List.getLast?_concat]
    simp only [if_pos rfl, List.dropLast_concat]
    exact map_eq_self_of (fun y hy => by
      unfold stripCR
      rw [if_neg (h3 y hy)])

/-! ### The content of the merged line list -/

theorem mem_mergeList {T : Line} {P : List Line} {x : Line} :
    x ∈ mergeList T P ↔ (∃ y ∈ rustLines T ++ P, trim y = x) ∧ keepLine x = true := by
  rw [mergeList, mem_canon, List.mem_filter]
  constructor
  · rintro ⟨hx, hk⟩
    refine ⟨?_, hk⟩
    obtain ⟨y, hy, rfl⟩ := List.mem_map.mp hx
    exact ⟨y, List.mem_dedup.mp hy, rfl⟩
  · rintro ⟨⟨y, hy, rfl⟩, hk⟩
    exact ⟨List.mem_map.mpr ⟨y, List.mem_dedup.mpr hy, rfl⟩, hk⟩

theorem trimmed_of_mem_mergeList {T : Line} {P : List Line} {x : Line}
    (h : x ∈ mergeList T P) : trim x = x := by
  obtain ⟨⟨y, _, rfl⟩, _⟩ := mem_mergeList.mp h
  exact trim_trim y

theorem keep_of_mem_mergeList {T : Line} {P : List Line} {x : Line}
    (h : x ∈ mergeList T P) : keepLine x = true :=
  (mem_mergeList.mp h).2

theorem ne_nil_of_mem_mergeList {T : Line} {P : List Line} {x : Line}
    (h : x ∈ mergeList T P) : x ≠ [] := by
  have hk := keep_of_mem_mergeList h
  intro hnil
  subst hnil
  simp [keepLine] at hk

theorem no_hash_of_mem_mergeList {T : Line} {P : List Line} {x : Line}
    (h : x ∈ mergeList T P) : x.head? ≠ some '#' := by
  have hk := keep_of_mem_mergeList h
  intro hhash
  simp [keepLine, hhash] at hk

theorem no_ws_end_of_mem_mergeList {T : Line} {P : List Line} {x : Line}
    (h : x ∈ mergeList T P) {c : Char} (hc : x.getLast? = some c) :
    rustIsWhitespace c = false :=
  trim_getLast_false (by rwa [trimmed_of_mem_mergeList h])

theorem nodup_mergeList (T : Line) (P : List Line) : (mergeList T P).Nodup :=
  nodup_canon _

theorem no_nl_of_mem_mergeList {T : Line} {P : List Line}
    (hP : ∀ a ∈ P, '\n' ∉ trim a) {x : Line} (h : x ∈ mergeList T P) : '\n' ∉ x := by
  obtain ⟨⟨y, hy, rfl⟩, _⟩ := mem_mergeList.mp h
  rcases List.mem_append.mp hy with h1 | h1
  · exact not_mem_trim (no_nl_of_mem_rustLines h1)
  · exact hP y h1

/-- Splitting a rendered merge back into lines recovers the rendered line list,
    provided no new pattern smuggles a newline into a single set member. -/
theorem rustLines_merge {T : Line} {P : List Line} (hP : ∀ a ∈ P, '\n' ∉ trim a) :
    rustLines (merge T P) = mergeList T P := by
  rw [merge]
  apply rustLines_joinNl
  · exact fun x hx => no_nl_of_mem_mergeList hP hx
  · exact fun x hx => ne_nil_of_mem_mergeList hx
  · intro x hx hlast
    have hws := no_ws_end_of_mem_mergeList hx hlast
    exact absurd hws (by decide)

theorem mergeList_merge {T : Line} {P : List Line} (hP : ∀ a ∈ P, '\n' ∉ trim a) :
    mergeList (merge T P) [] = mergeList T P := by
  rw [mergeList, List.append_nil, rustLines_merge hP,
    List.Nodup.dedup (nodup_mergeList T P),
    map_eq_self_of (fun x hx => trimmed_of_mem_mergeList hx),
    List.filter_eq_self.mpr (fun x hx => keep_of_mem_mergeList hx),
    mergeList]
  exact canon_canon _

theorem merge_self_stable {T : Line} {P : List Line} (hP : ∀ a ∈ P, '\n' ∉ trim a) :
    merge (merge T P) [] = merge T P := by
  show joinNl (mergeList (merge T P) []) = merge T P
  rw [mergeList_merge hP]
  rfl

/-! ### Congruence of merging in the input set -/

theorem mem_trimFiltered {ins : List Line} {x : Line} :
    x ∈ ((ins.dedup.map trim).filter keepLine) ↔
      (∃ y ∈ ins, trim y = x) ∧ keepLine x = true := by
  rw [List.mem_filter]
  constructor
  · rintro ⟨hx, hk⟩
    obtain ⟨y, hy, rfl⟩ := List.mem_map.mp hx
    exact ⟨⟨y, List.mem_dedup.mp hy, rfl⟩, hk⟩
  · rintro ⟨⟨y, hy, rfl⟩, hk⟩
    exact ⟨List.mem_map.mpr ⟨y, List.mem_dedup.mpr hy, rfl⟩, hk⟩

theorem mergeList_congr_trim {T T' : Line} {P P' : List Line}
    (h : ∀ x, (∃ y ∈ rustLines T ++ P, trim y = x) ↔
      (∃ y ∈ rustLines T' ++ P', trim y = x)) :
    mergeList T P = mergeList T' P' := by
  rw [mergeList, mergeList]
  apply canon_eq_of_mem_iff
  intro x
  rw [mem_trimFiltered, mem_trimFiltered]
  exact and_congr_left' (h x)

theorem update_none_iff {T : Line} {P : List Line} :
    (update T P).1 = none ↔ merge T P = T := by
  by_cases heq : merge T P = T
  · simp [update, heq]
  · simp [update, heq]

theorem update_exit (T : Line) (P : List Line) : (update T P).2 = 0 := by
  by_cases heq : merge T P = T
  · simp [update, heq]
  · simp [update, heq]

/-! ### Shape of the rendered line list -/

theorem canon_filter_pos (ls : List Line) :
    (canon ls).filter (fun l => !isNeg l) = (sortDedup ls).filter (fun l => !isNeg l) := by
  rw [canon_eq_filter, List.filter_append]
  have h1 : ((sortDedup ls).filter (fun l => !isNeg l)).filter (fun l => !isNeg l)
      = (sortDedup ls).filter (fun l => !isNeg l) :=
    List.filter_eq_self.mpr (fun a ha => (List.mem_filter.mp ha).2)
  have h2 : ((sortDedup ls).filter (fun l => isNeg l)).filter (fun l => !isNeg l) = [] := by
    apply List.filter_eq_nil_iff.mpr
    intro a ha
    have hneg := (List.mem_filter.mp ha).2
    simp [hneg]
  rw [h1, h2, List.append_nil]

theorem canon_filter_neg (ls : List Line) :
    (canon ls).filter (fun l => isNeg l) = (sortDedup ls).filter (fun l => isNeg l) := by
  rw [canon_eq_filter, List.filter_append]
  have h1 : ((sortDedup ls).filter (fun l => !isNeg l)).filter (fun l => isNeg l) = [] := by
    apply List.filter_eq_nil_iff.mpr
    intro a ha
    have hpos := (List.mem_filter.mp ha).2
    simp at hpos
    simp [hpos]
  have h2 : ((sortDedup ls).filter (fun l => isNeg l)).filter (fun l => isNeg l)
      = (sortDedup ls).filter (fun l => isNeg l) :=
    List.filter_eq_self.mpr (fun a ha => (List.mem_filter.mp ha).2)
  rw [h1, h2, List.nil_append]

theorem canon_split (ls : List Line) :
    canon ls = (canon ls).filter (fun l => !isNeg l) ++ (canon ls).filter (fun l => isNeg l) := by
  rw [canon_filter_pos, canon_filter_neg]
  exact canon_eq_filter ls

theorem sorted_canon_filter_pos (ls : List Line) :
    ((canon ls).filter (fun l => !isNeg l)).Sorted (· ≤ ·) := by
  rw [canon_filter_pos]
  exact List.Pairwise.sublist (List.filter_sublist _) (sorted_sortDedup ls)

theorem sorted_canon_filter_neg (ls : List Line) :
    ((canon ls).filter (fun l => isNeg l)).Sorted (· ≤ ·) := by
  rw [canon_filter_neg]
  exact List.Pairwise.sublist (List.filter_sublist _) (sorted_sortDedup ls)

theorem joinNl_eq_append {L : List Line} (h2 : ∀ x ∈ L, x ≠ []) (hL : L ≠ []) :
    joinNl L = joinLines L ++ ['\n'] := by
  rw [joinNl]
  cases hjl : joinLines L with
  | nil => exact absurd hjl (joinLines_ne_nil hL h2)
  | cons a as => simp

/-! ### Option processing -/

/-- The mode a single option sets (`-h` sets none and leaves `m₀`). -/
def modeOfFlag (m₀ : Mode) : CliOpt → Mode
  | .f a => .file a
  | .g => .global
  | .i => .internal
  | .r => .root
  | .h => m₀

/-- The specification's reading of mode selection: the active mode is the one
    set by the *last* mode flag on the command line, or the initial mode when
    no flag is given. -/
def specLastWinsMode (m₀ : Mode) (opts : List CliOpt) : Mode :=
  match opts.getLast? with
  | some o => modeOfFlag m₀ o
  | none => m₀

theorem specLastWinsMode_init (m m' : Mode) {opts : List CliOpt} (hne : opts ≠ [])
    (h : CliOpt.h ∉ opts) : specLastWinsMode m opts = specLastWinsMode m' opts := by
  cases hlast : opts.getLast? with
  | none => exact absurd (List.getLast?_eq_none_iff.mp hlast) hne
  | some o' =>
    have ho' : o' ≠ CliOpt.h := fun he => h (he ▸ List.mem_of_getLast?_eq_some hlast)
    simp only [specLastWinsMode, hlast]
    cases o' with
    | f a => rfl
    | g => rfl
    | i => rfl
    | r => rfl
    | h => exact absurd rfl ho'

theorem runOpts_eq_lastWins :
    ∀ (m₀ : Mode) {opts : List CliOpt}, CliOpt.h ∉ opts →
      runOpts m₀ opts = some (specLastWinsMode m₀ opts)
  | _, [], _ => rfl
  | m₀, [o], h => by
    have ho : o ≠ CliOpt.h := fun he => h (he ▸ List.mem_cons_self o [])
    cases o with
    | f a => rfl
    | g => rfl
    | i => rfl
    | r => rfl
    | h => exact absurd rfl ho
  | m₀, o :: o2 :: rest, h => by
    have ho : o ≠ CliOpt.h := fun he => h (he ▸ List.mem_cons_self o (o2 :: rest))
    have htail : CliOpt.h ∉ o2 :: rest := fun hm => h (List.mem_cons_of_mem o hm)
    have hspec : ∀ m : Mode,
        specLastWinsMode m (o :: o2 :: rest) = specLastWinsMode m (o2 :: rest) := by
      intro m
      simp only [specLastWinsMode, List.getLast?_cons_cons]
    have step : runOpts m₀ (o :: o2 :: rest) = runOpts (modeOfFlag m₀ o) (o2 :: rest) := by
      cases o with
      | f a => rfl
      | g => rfl
      | i => rfl
      | r => rfl
      | h => exact absurd rfl ho
    rw [step, runOpts_eq_lastWins (modeOfFlag m₀ o) htail, hspec,
      specLastWinsMode_init m₀ (modeOfFlag m₀ o) (by simp) htail]

theorem runOpts_none_of_h (m₀ : Mode) (opts : List CliOpt) (h : CliOpt.h ∈ opts) :
    runOpts m₀ opts = none := by
  induction opts generalizing m₀ with
  | nil => exact absurd h (List.not_mem_nil _)
  | cons o rest ih =>
    cases o with
    | f a => exact ih (.file a) (by simpa using h)
    | g => exact ih .global (by simpa using h)
    | i => exact ih .internal (by simpa using h)
    | r => exact ih .root (by simpa using h)
    | h => rfl

/-! ### The claims -/

/-- C1, counterexample to the unrestricted statement: with the single pattern
    string "b\na" (which contains a newline), `merge "" P` renders the text
    "b\na\n"; re-merging that text with no new patterns splits it into the two
    lines "b" and "a" and renders "a\nb\n", a different text. -/
theorem claim1_cex :
    merge (merge [] [str "b\na"]) [] ≠ merge [] [str "b\na"] := by decide

/-- C1 (amended): merge is idempotent — `merge (merge T P) [] = merge T P` —
    for every text `T` and every pattern list `P` in which no pattern still
    contains a newline after trimming. (Lines of `T` never contain a newline,
    so `T` needs no restriction; only a newline smuggled inside a single
    pattern argument re-splits on the second pass.) -/
theorem claim1_idempotent {T : Line} {P : List Line}
    (hP : ∀ a ∈ P, '\n' ∉ trim a) :
    merge (merge T P) [] = merge T P :=
  merge_self_stable hP

theorem claim1_witness :
    (∀ a ∈ [str "  b ", str "!x", str "# c"], '\n' ∉ trim a) ∧
      merge (merge (str "foo\n#zap\n") [str "  b ", str "!x", str "# c"]) []
        = merge (str "foo\n#zap\n") [str "  b ", str "!x", str "# c"] :=
  ⟨by decide, claim1_idempotent (by decide)⟩

/-- C2, counterexample to the claim as stated: for `T` = "b\na\n" and
    `P` = ["a"], every pattern of `P` already appears (trimmed) among the
    trimmed lines of `T`, yet `merge T P` = "a\nb\n" ≠ `T` (the existing lines
    were not in canonical order), so the orchestrator does write. -/
theorem claim2_cex :
    (∀ a ∈ [str "a"], trim a ∈ (rustLines (str "b\na\n")).map trim) ∧
      merge (str "b\na\n") [str "a"] ≠ str "b\na\n" ∧
      (update (str "b\na\n") [str "a"]).1 ≠ none := by
  refine ⟨?_, ?_, ?_⟩ <;> decide

/-- C2 (amended): if every pattern of `P` already appears, after trimming,
    among the trimmed lines of `T`, then merging `P` is the same as merging
    nothing: `merge T P = merge T []`; consequently the orchestrator performs
    no write exactly when `T` is already in canonical merged form,
    `merge T [] = T`. -/
theorem claim2_noop {T : Line} {P : List Line}
    (h : ∀ a ∈ P, trim a ∈ (rustLines T).map trim) :
    merge T P = merge T [] ∧ ((update T P).1 = none ↔ merge T [] = T) := by
  have hm : merge T P = merge T [] := by
    show joinNl (mergeList T P) = joinNl (mergeList T [])
    apply congrArg joinNl
    apply mergeList_congr_trim
    intro x
    constructor
    · rintro ⟨y, hy, rfl⟩
      rcases List.mem_append.mp hy with h1 | h1
      · exact ⟨y, by simpa using h1, rfl⟩
      · obtain ⟨z, hz, hzy⟩ := List.mem_map.mp (h y h1)
        exact ⟨z, by simpa using hz, hzy⟩
    · rintro ⟨y, hy, rfl⟩
      rw [List.append_nil] at hy
      exact ⟨y, List.mem_append_left _ hy, rfl⟩
  exact ⟨hm, by rw [update_none_iff, hm]⟩

theorem claim2_witness :
    (∀ a ∈ [str "a"], trim a ∈ (rustLines (str "a\nb\n")).map trim) ∧
      (merge (str "a\nb\n") [str "a"] = merge (str "a\nb\n") [] ∧
        ((update (str "a\nb\n") [str "a"]).1 = none ↔
          merge (str "a\nb\n") [] = str "a\nb\n")) :=
  ⟨by decide, claim2_noop (by decide)⟩

/-- C3: merge is insensitive to the order of the new-pattern list —
    `merge T [a, b] = merge T [b, a]` — and, more generally, the output is a
    pure function of the set of trimmed member strings: pattern lists with the
    same trimmed members merge identically. -/
theorem claim3_comm (T a b : Line) (P P' : List Line)
    (h : ∀ x, (∃ p ∈ P, trim p = x) ↔ (∃ p ∈ P', trim p = x)) :
    merge T [a, b] = merge T [b, a] ∧ merge T P = merge T P' := by
  constructor
  · show joinNl (mergeList T [a, b]) = joinNl (mergeList T [b, a])
    apply congrArg joinNl
    apply mergeList_congr_trim
    intro x
    constructor <;>
    · rintro ⟨y, hy, rfl⟩
      rcases List.mem_append.mp hy with h1 | h1
      · exact ⟨y, List.mem_append_left _ h1, rfl⟩
      · refine ⟨y, List.mem_append_right _ ?_, rfl⟩
        simp only [List.mem_cons, List.mem_singleton] at h1 ⊢
        tauto
  · show joinNl (mergeList T P) = joinNl (mergeList T P')
    apply congrArg joinNl
    apply mergeList_congr_trim
    intro x
    constructor
    · rintro ⟨y, hy, rfl⟩
      rcases List.mem_append.mp hy with h1 | h1
      · exact ⟨y, List.mem_append_left _ h1, rfl⟩
      · obtain ⟨z, hz, hzx⟩ := (h (trim y)).mp ⟨y, h1, rfl⟩
        exact ⟨z, List.mem_append_right _ hz, hzx⟩
    · rintro ⟨y, hy, rfl⟩
      rcases List.mem_append.mp hy with h1 | h1
      · exact ⟨y, List.mem_append_left _ h1, rfl⟩
      · obtain ⟨z, hz, hzx⟩ := (h (trim y)).mpr ⟨y, h1, rfl⟩
        exact ⟨z, List.mem_append_right _ hz, hzx⟩

theorem claim3_witness :
    merge (str "x\n") [str "p", str "q"] = merge (str "x\n") [str "q", str "p"] ∧
      merge (str "x\n") [str "p"] = merge (str "x\n") [str "p"] :=
  claim3_comm (str "x\n") (str "p") (str "q") [str "p"] [str "p"] (fun _ => Iff.rfl)

/-- C4, counterexample to the unrestricted statement: the comment check
    inspects only the first character of each set member, so a '#' hidden
    after an embedded newline survives: with the single pattern "x\n#c" the
    output text is "x\n#c\n", and its second line "#c" begins with '#'. -/
theorem claim4_cex :
    str "#c" ∈ rustLines (merge [] [str "x\n#c"]) ∧ (str "#c").head? = some '#' := by
  refine ⟨?_, ?_⟩ <;> decide

/-- C4 (amended): for every text `T` and every pattern list `P` in which no
    pattern still contains a newline after trimming, no line of the output
    text `merge T P` is empty after trimming or begins with '#' — so a blank
    or comment input line, whether from the existing text or from the
    arguments, is discarded and never appears. -/
theorem claim4_strip (T : Line) (P : List Line) (hP : ∀ a ∈ P, '\n' ∉ trim a) :
    ∀ x ∈ rustLines (merge T P), trim x ≠ [] ∧ x.head? ≠ some '#' := by
  rw [rustLines_merge hP]
  intro x hx
  refine ⟨?_, no_hash_of_mem_mergeList hx⟩
  rw [trimmed_of_mem_mergeList hx]
  exact ne_nil_of_mem_mergeList hx

theorem claim4_witness :
    (∀ a ∈ [str "bar"], '\n' ∉ trim a) ∧
      (trim (str "bar") ≠ [] ∧ (str "bar").head? ≠ some '#') :=
  ⟨by decide,
   claim4_strip (str "#c\n \nfoo\n") [str "bar"] (by decide) (str "bar") (by decide)⟩

/-- C5, counterexample to the unrestricted statement: a pattern with an
    embedded newline is sorted and partitioned as a single set member, so the
    lines of the output text can violate every part of the claim: with the
    patterns "y" and "!a\nz" the output is "y\n!a\nz\n", whose non-negation
    line "z" appears strictly after the negation line "!a"; and with the
    patterns "a\nb" and "a" the output is "a\na\nb\n", which has the
    duplicate line "a". -/
theorem claim5_cex :
    rustLines (merge [] [str "y", str "!a\nz"]) = [str "y", str "!a", str "z"] ∧
      isNeg (str "!a") = true ∧ isNeg (str "z") = false ∧
      ¬ (rustLines (merge [] [str "a\nb", str "a"])).Nodup := by
  refine ⟨?_, ?_, ?_, ?_⟩ <;> decide

/-- C5 (amended): for every text `T` and every pattern list `P` in which no
    pattern still contains a newline after trimming, the lines of the output
    text `merge T P` consist of the non-negation lines (not starting with '!')
    followed by the negation lines — so every non-negation line appears
    strictly before every negation line — each of the two segments is sorted
    (lexicographically by code point, which for UTF-8 text coincides with byte
    order), and no line is duplicated. -/
theorem claim5_order (T : Line) (P : List Line) (hP : ∀ a ∈ P, '\n' ∉ trim a) :
    (rustLines (merge T P)).Nodup ∧
      rustLines (merge T P) = (rustLines (merge T P)).filter (fun l => !isNeg l) ++
        (rustLines (merge T P)).filter (fun l => isNeg l) ∧
      ((rustLines (merge T P)).filter (fun l => !isNeg l)).Sorted (· ≤ ·) ∧
      ((rustLines (merge T P)).filter (fun l => isNeg l)).Sorted (· ≤ ·) := by
  rw [rustLines_merge hP, mergeList]
  exact ⟨nodup_canon _, canon_split _, sorted_canon_filter_pos _, sorted_canon_filter_neg _⟩

theorem claim5_witness :
    (∀ a ∈ [str "!k", str "b"], '\n' ∉ trim a) ∧
      ((rustLines (merge [] [str "!k", str "b"])).Nodup ∧
        rustLines (merge [] [str "!k", str "b"]) =
          (rustLines (merge [] [str "!k", str "b"])).filter (fun l => !isNeg l) ++
            (rustLines (merge [] [str "!k", str "b"])).filter (fun l => isNeg l) ∧
        ((rustLines (merge [] [str "!k", str "b"])).filter (fun l => !isNeg l)).Sorted (· ≤ ·) ∧
        ((rustLines (merge [] [str "!k", str "b"])).filter (fun l => isNeg l)).Sorted (· ≤ ·)) :=
  ⟨by decide, claim5_order [] [str "!k", str "b"] (by decide)⟩

/-- C6: a non-empty merge result ends in exactly one newline — it is a chunk
    `s` not itself ending in a newline, followed by a single '\n' — and the
    result is the empty string exactly when the merged pattern set is empty. -/
theorem claim6_newline (T : Line) (P : List Line) :
    (merge T P = [] ↔ mergeList T P = []) ∧
      (merge T P ≠ [] → ∃ s, merge T P = s ++ ['\n'] ∧ s.getLast? ≠ some '\n') := by
  have hne : ∀ x ∈ mergeList T P, x ≠ [] := fun _ hx => ne_nil_of_mem_mergeList hx
  constructor
  · constructor
    · intro hm
      by_contra hL
      have happ := joinNl_eq_append hne hL
      rw [merge, happ] at hm
      simp at hm
    · intro hL
      rw [merge, hL]
      rfl
  · intro hm
    have hL : mergeList T P ≠ [] := by
      intro h0
      exact hm (by rw [merge, h0]; rfl)
    refine ⟨joinLines (mergeList T P), ?_, ?_⟩
    · rw [merge, joinNl_eq_append hne hL]
    · apply getLast?_joinLines_not
      · intro x hx hlast
        have hws := no_ws_end_of_mem_mergeList hx hlast
        exact absurd hws (by decide)
      · exact hne

theorem claim6_witness :
    ∃ s, merge [] [str "a"] = s ++ ['\n'] ∧ s.getLast? ≠ some '\n' :=
  (claim6_newline [] [str "a"]).2 (by decide)

/-- C7: mode selection is last-wins: when no help flag occurs, the option loop
    returns exactly the mode set by the last mode flag of the sequence (or the
    initial mode when there is none); each flag unconditionally overwrites the
    current mode and repeated or mixed flags never produce an error. -/
theorem claim7_lastwins (m₀ : Mode) (opts : List CliOpt) (h : CliOpt.h ∉ opts) :
    runOpts m₀ opts = some (specLastWinsMode m₀ opts) :=
  runOpts_eq_lastWins m₀ h

theorem claim7_witness :
    runOpts defaultMode [CliOpt.g, CliOpt.f (str "x"), CliOpt.r] = some Mode.root := by
  have h := claim7_lastwins defaultMode [CliOpt.g, CliOpt.f (str "x"), CliOpt.r] (by decide)
  rw [h]
  rfl

/-- C8: with no help flag and no positional patterns the program prints the
    usage line (to stderr) and exits 1; with at least one pattern it proceeds
    to the update; a successful update (including "no change") and the help
    display both exit 0. -/
theorem claim8_usage (opts : List CliOpt) (pos : List Line) (old : Line) :
    (CliOpt.h ∉ opts → pos = [] →
      program opts pos = Outcome.usageError ∧ programExit opts pos old = 1) ∧
    (CliOpt.h ∉ opts → pos ≠ [] →
      ∃ m, program opts pos = Outcome.runUpdate m pos ∧ programExit opts pos old = 0) ∧
    (CliOpt.h ∈ opts → program opts pos = Outcome.help ∧ programExit opts pos old = 0) := by
  refine ⟨?_, ?_, ?_⟩
  · intro hno hpos
    have hr := runOpts_eq_lastWins defaultMode hno
    subst hpos
    refine ⟨?_, ?_⟩
    · rw [program, hr]
      rfl
    · rw [programExit, program, hr]
      rfl
  · intro hno hpos
    have hr := runOpts_eq_lastWins defaultMode hno
    have hie : pos.isEmpty = false := by
      cases pos with
      | nil => exact absurd rfl hpos
      | cons a as => rfl
    refine ⟨specLastWinsMode defaultMode opts, ?_, ?_⟩
    · rw [program, hr]
      simp [hie]
    · rw [programExit, program, hr]
      simp [hie, update_exit]
  · intro hyes
    have hr := runOpts_none_of_h defaultMode opts hyes
    exact ⟨by rw [program, hr], by rw [programExit, program, hr]⟩


theorem claim8_witness :
    (program [] [] = Outcome.usageError ∧ programExit [] [] [] = 1) ∧
      (∃ m, program [] [str "a"] = Outcome.runUpdate m [str "a"] ∧
        programExit [] [str "a"] [] = 0) ∧
      (program [CliOpt.h] [] = Outcome.help ∧ programExit [CliOpt.h] [] [] = 0) :=
  ⟨(claim8_usage [] [] []).1 (by decide) rfl,
   (claim8_usage [] [str "a"] []).2.1 (by decide) (by decide),
   (claim8_usage [CliOpt.h] [] []).2.2 (by decide)⟩

/-- C9: global-mode resolution returns the store's "core.excludesFile" path
    verbatim when present; exactly on the store error with class Config and
    code NotFound it falls back to the user configuration directory joined
    with git/ignore, creating that directory tree; any other store error is
    propagated with no fallback (and a missing user configuration directory
    in the fallback is itself an error). -/
theorem claim9_global (p : FsPath) (cfg : Option FsPath) (d : FsPath)
    (cls : ErrorClass) (code : ErrorCode) :
    global_ignore_file (.ok p) cfg = .ok ⟨p, none⟩ ∧
      global_ignore_file (.error .config .notFound) (some d) =
        .ok ⟨(d ++ [str "git"]) ++ [str "ignore"], some (d ++ [str "git"])⟩ ∧
      (¬(cls = .config ∧ code = .notFound) →
        global_ignore_file (.error cls code) cfg = .error (.store cls code)) ∧
      global_ignore_file (.error .config .notFound) none = .error .noConfigDir := by
  refine ⟨rfl, rfl, ?_, rfl⟩
  intro hnot
  simp only [global_ignore_file]
  rw [if_neg hnot]

theorem claim9_witness :
    global_ignore_file (.ok [str "own"]) none = .ok ⟨[str "own"], none⟩ ∧
      global_ignore_file (.error .config .notFound) (some [str "home"]) =
        .ok ⟨([str "home"] ++ [str "git"]) ++ [str "ignore"],
          some ([str "home"] ++ [str "git"])⟩ ∧
      global_ignore_file (.error .other .notFound) none =
        .error (.store .other .notFound) ∧
      global_ignore_file (.error .config .notFound) none = .error .noConfigDir := by
  have h := claim9_global [str "own"] none [str "home"] .other .notFound
  exact ⟨h.1, h.2.1, h.2.2.1 (by decide), h.2.2.2⟩

/-- C10: with no mode flag the program starts and stays in
    `Mode::File(".gitignore")`, so the patterns are merged into the file
    ".gitignore" joined onto the current working directory. -/
theorem claim10_default (pos : List Line) (env : Env) (hp : pos ≠ []) :
    runOpts defaultMode [] = some (Mode.file (str ".gitignore")) ∧
      program [] pos = Outcome.runUpdate (Mode.file (str ".gitignore")) pos ∧
      get_file env (Mode.file (str ".gitignore")) =
        .ok ⟨env.cwd ++ [str ".gitignore"], none⟩ := by
  have hie : pos.isEmpty = false := by
    cases pos with
    | nil => exact absurd rfl hp
    | cons a as => rfl
  refine ⟨rfl, ?_, rfl⟩
  rw [program]
  simp [runOpts, hie, defaultMode]

theorem claim10_witness :
    program [] [str "p"] = Outcome.runUpdate (Mode.file (str ".gitignore")) [str "p"] ∧
      get_file ⟨[str "home"], .ok [], none, none⟩ (Mode.file (str ".gitignore")) =
        .ok ⟨[str "home"] ++ [str ".gitignore"], none⟩ := by
  have h := claim10_default [str "p"] ⟨[str "home"], .ok [], none, none⟩ (by decide)
  exact ⟨h.2.1, h.2.2⟩
